import Mathlib

/-!
# git-gud: a verified model of the commit-graph core

This file is a shallow embedding of the `git_gud` commit-graph model
(`src/git-gud.hpp`): the `Commit` node type and the `GitTree` graph
manager with its mutating operations (addCommit, branch, checkout,
checkoutCommit, merge, undo, reset).

The repository ships only the header `git-gud.hpp`; the implementation
translation unit is not part of the sources.  Every operation body below
is therefore modelled from the specification ("Modelled from the spec"
in its doc comment), faithful to the spec's tables in §4.3 and the
declared invariants in §3.  Following the spec's own design note (§9),
the object graph of `shared_ptr` links is embedded arena-style: the tree
owns the list of commits (insertion-ordered, as `std::vector<...> commits`
is) and parent/child links are stored as plain integer ids resolved
through the tree.  Ids are modelled as `Nat`: the C++ `int` ids are drawn
from counters starting at 0 and are never negative.
-/

namespace GitGud

/-- Error condition of the model.  The C++ code reports every precondition
violation as `std::invalid_argument`; the spec's taxonomy (§7) maps all
failure kinds to invalid-argument style conditions. -/
inductive GitErr where
  | invalidArgument
deriving Repr, DecidableEq

/-- A commit node: unique id, the id of the branch it was created on, and
ordered parent / child links (stored as commit ids, arena style). -/
structure Commit where
  commitID : Nat
  branchID : Nat
  parents : List Nat
  children : List Nat
deriving Repr, DecidableEq

/-- `Commit::addParent`: appends `p` to the parent list; invalid-argument
if a commit would become its own parent.  Does not update the other side
(the caller is responsible for the reciprocal link). -/
def Commit.addParent (c : Commit) (p : Nat) : Except GitErr Commit :=
  if p = c.commitID then .error .invalidArgument
  else .ok { c with parents := c.parents ++ [p] }

/-- `Commit::addChild`: appends `ch` to the child list; invalid-argument
if a commit would become its own child. -/
def Commit.addChild (c : Commit) (ch : Nat) : Except GitErr Commit :=
  if ch = c.commitID then .error .invalidArgument
  else .ok { c with children := c.children ++ [ch] }

/-- `Commit::removeParent`: removes the first parent with the given id;
invalid-argument if no such parent exists. -/
def Commit.removeParent (c : Commit) (id : Nat) : Except GitErr Commit :=
  if id ∈ c.parents then .ok { c with parents := c.parents.erase id }
  else .error .invalidArgument

/-- `Commit::removeChild`: removes the first child with the given id;
invalid-argument if no such child exists. -/
def Commit.removeChild (c : Commit) (id : Nat) : Except GitErr Commit :=
  if id ∈ c.children then .ok { c with children := c.children.erase id }
  else .error .invalidArgument

/-- `Commit::isMergeCommit`: true iff the commit has two or more parents. -/
def Commit.isMergeCommit (c : Commit) : Bool :=
  2 ≤ c.parents.length

/-- The tree: id counters, head (by commit id), current branch, the owning
insertion-ordered commit collection, and the branch-head table mapping
branch ids to tip commit ids.  Per the spec's design note the id counters
are fields of the instance. -/
structure GitTree where
  nextCommitID : Nat
  nextBranchID : Nat
  head : Nat
  currentBranch : Nat
  commits : List Commit
  branchHeads : List (Nat × Nat)
deriving Repr, DecidableEq

/-- Construction contract (spec §6): a fresh tree has exactly one commit
(id 0, branch 0), checked out, with one branch registered. -/
def GitTree.new : GitTree :=
  { nextCommitID := 1
    nextBranchID := 1
    head := 0
    currentBranch := 0
    commits := [{ commitID := 0, branchID := 0, parents := [], children := [] }]
    branchHeads := [(0, 0)] }

/-- `GitTree::getCommit`: looks a commit up by id in the owning collection. -/
def GitTree.getCommit (t : GitTree) (id : Nat) : Option Commit :=
  t.commits.find? (fun c => c.commitID = id)

/-- `GitTree::isValidCommitID`. -/
def GitTree.isValidCommitID (t : GitTree) (id : Nat) : Bool :=
  (t.getCommit id).isSome

/-- Tip of a branch, read from the branch-head table. -/
def GitTree.getTip (t : GitTree) (b : Nat) : Option Nat :=
  (t.branchHeads.find? (fun e => e.1 = b)).map (·.2)

/-- `GitTree::isValidBranchID`. -/
def GitTree.isValidBranchID (t : GitTree) (b : Nat) : Bool :=
  (t.getTip b).isSome

/-- `GitTree::getAllCommitIDs`: the ids of all commits, in insertion order. -/
def GitTree.getAllCommitIDs (t : GitTree) : List Nat :=
  t.commits.map (·.commitID)

/-- `GitTree::getAllBranchIDs`: the live branch ids. -/
def GitTree.getAllBranchIDs (t : GitTree) : List Nat :=
  (t.branchHeads.map (·.1)).dedup

/-- `GitTree::getNumCommits`. -/
def GitTree.getNumCommits (t : GitTree) : Nat :=
  t.commits.length

/-- The reciprocal child link: when `c` is one of the parents of the commit
being created (id `n`), append `n` to `c`'s child list. -/
def childLink (ps : List Nat) (n : Nat) (c : Commit) : Commit :=
  if c.commitID ∈ ps then { c with children := c.children ++ [n] } else c

/-- Branch-head bookkeeping: overwrite the tip of every branch selected by
`cond` with the id `n` of the commit being created. -/
def tipUpd (cond : Nat → Bool) (n : Nat) (e : Nat × Nat) : Nat × Nat :=
  if cond e.1 then (e.1, n) else e

/-- Core graph edit shared by the commit-creating operations.  Modelled
from the spec: allocates the next commit id, creates the new commit with
the given parent list and branch tag, appends the new id to the child
list of every commit in the parent list (the reciprocal link), appends
the new commit to the owning collection, sets head to `h'`, and
overwrites the tip of every branch selected by `cond` with the new id. -/
def GitTree.linkNew (t : GitTree) (ps : List Nat) (br : Nat) (h' : Nat)
    (cond : Nat → Bool) : GitTree :=
  { nextCommitID := t.nextCommitID + 1
    nextBranchID := t.nextBranchID
    head := h'
    currentBranch := t.currentBranch
    commits :=
      t.commits.map (childLink ps t.nextCommitID)
      ++ [{ commitID := t.nextCommitID, branchID := br, parents := ps, children := [] }]
    branchHeads := t.branchHeads.map (tipUpd cond t.nextCommitID) }

/-- `GitTree::addCommit()`.  Modelled from the spec: if the head commit
has no child yet, creates a new commit as child of head on the current
branch, links both ways, and advances both head and the current branch's
tip to the new commit; invalid-argument if head already has a child. -/
def GitTree.addCommit (t : GitTree) : Except GitErr GitTree :=
  match t.getCommit t.head with
  | none => .error .invalidArgument
  | some hc =>
    if hc.children = [] then
      .ok (t.linkNew [t.head] t.currentBranch t.nextCommitID (fun b => b = t.currentBranch))
    else .error .invalidArgument

/-- `GitTree::addCommit(parentID)`.  Modelled from the spec: if the named
parent exists and has no child, creates the new commit as its child on
the parent's branch with reciprocal links; head moves to the new commit
only when the named parent was the head; invalid-argument if the parent
is unknown or already has a child.  For branch-head bookkeeping the spec
leaves two options (§9); this model takes option (b): the tip of the
branch the new commit is tagged with is overwritten unconditionally. -/
def GitTree.addCommitTo (t : GitTree) (parentID : Nat) : Except GitErr GitTree :=
  match t.getCommit parentID with
  | none => .error .invalidArgument
  | some p =>
    if p.children = [] then
      .ok (t.linkNew [parentID] p.branchID
            (if t.head = parentID then t.nextCommitID else t.head)
            (fun b => b = p.branchID))
    else .error .invalidArgument

/-- `GitTree::branch()`.  Modelled from the spec: allocates a new branch
id, registers it in the branch-head table pointing at the current head,
and does not check it out.  Returns the new branch id. -/
def GitTree.branch (t : GitTree) : GitTree × Nat :=
  ({ t with
      nextBranchID := t.nextBranchID + 1
      branchHeads := t.branchHeads ++ [(t.nextBranchID, t.head)] },
   t.nextBranchID)

/-- `GitTree::checkout(branchID)`.  Modelled from the spec: sets head to
the branch's tip and the current branch to it; invalid-argument if the
branch is unknown. -/
def GitTree.checkout (t : GitTree) (b : Nat) : Except GitErr GitTree :=
  match t.getTip b with
  | none => .error .invalidArgument
  | some tip => .ok { t with head := tip, currentBranch := b }

/-- `GitTree::checkoutCommit(commitID)`.  Modelled from the spec: sets
head directly to the named commit and the current branch to that
commit's branch; invalid-argument if the commit is unknown. -/
def GitTree.checkoutCommit (t : GitTree) (id : Nat) : Except GitErr GitTree :=
  match t.getCommit id with
  | none => .error .invalidArgument
  | some c => .ok { t with head := id, currentBranch := c.branchID }

/-- `GitTree::merge(branchID)`.  Modelled from the spec: creates a new
commit whose parents are the current head and the named branch's tip (in
that order), appends the new commit as a child of both, makes it the new
head, and updates both branches' tips to it; invalid-argument if the
branch is unknown. -/
def GitTree.merge (t : GitTree) (b : Nat) : Except GitErr GitTree :=
  match t.getTip b with
  | none => .error .invalidArgument
  | some tip =>
    .ok (t.linkNew [t.head, tip] t.currentBranch t.nextCommitID
          (fun k => k = t.currentBranch || k = b))

/-- `GitTree::merge(parentID, otherID)`.  Modelled from the spec: the
generalized two-parent merge not anchored at head — creates a new commit
parented on both named commits (on the first parent's branch, whose tip
it overwrites, per option (b) of §9); head is unchanged; invalid-argument
if either commit is unknown. -/
def GitTree.mergeCommits (t : GitTree) (parentID otherID : Nat) : Except GitErr GitTree :=
  match t.getCommit parentID, t.getCommit otherID with
  | some p, some _ =>
    .ok (t.linkNew [parentID, otherID] p.branchID t.head (fun k => k = p.branchID))
  | _, _ => .error .invalidArgument

/-- Detaching the removed commit `c`: every parent of `c` loses the first
child entry carrying `c`'s id (the model of `Commit::removeChild`). -/
def childUnlink (c : Commit) (x : Commit) : Commit :=
  if x.commitID ∈ c.parents then { x with children := x.children.erase c.commitID } else x

/-- Branch tips that pointed at the removed commit (id `cid`) are rolled
back to its parent `p`. -/
def tipRollback (cid p : Nat) (e : Nat × Nat) : Nat × Nat :=
  if e.2 = cid then (e.1, p) else e

/-- `GitTree::undo()`.  Modelled from the spec: removes the most recently
created commit (the last of the insertion-ordered collection) from the
collection, detaches it from its parents' child lists, and moves head to
its (first) parent; a no-op when only the root commit remains.  Branch
tips that pointed at the removed commit are rolled back to that parent,
preserving the §3 invariant that every branch head is a valid commit. -/
def GitTree.undo (t : GitTree) : GitTree :=
  match t.commits.getLast? with
  | none => t
  | some c =>
    if t.commits.length ≤ 1 then t
    else
      match c.parents with
      | [] => t
      | p :: _ =>
        { t with
          head := p
          commits := t.commits.dropLast.map (childUnlink c)
          branchHeads := t.branchHeads.map (tipRollback c.commitID p) }

/-- `GitTree::reset()`.  Modelled from the spec: discards all commits and
branches and reinitializes to the single-root, single-branch starting
state with the counters reset. -/
def GitTree.reset (_t : GitTree) : GitTree :=
  GitTree.new

/-! ## Operation traces and reachability -/

/-- One call into the public mutating surface of `GitTree`. -/
inductive Op where
  | addCommit
  | addCommitTo (parentID : Nat)
  | branch
  | checkout (branchID : Nat)
  | checkoutCommit (commitID : Nat)
  | merge (branchID : Nat)
  | mergeCommits (parentID otherID : Nat)
  | undo
  | reset
deriving Repr, DecidableEq

/-- Applies one operation, returning the error when its precondition
fails. -/
def applyOp (t : GitTree) : Op → Except GitErr GitTree
  | .addCommit => t.addCommit
  | .addCommitTo p => t.addCommitTo p
  | .branch => .ok (t.branch).1
  | .checkout b => t.checkout b
  | .checkoutCommit c => t.checkoutCommit c
  | .merge b => t.merge b
  | .mergeCommits p o => t.mergeCommits p o
  | .undo => .ok t.undo
  | .reset => .ok t.reset

/-- A caller that catches the invalid-argument error keeps working with
the unchanged tree: the state observable after a failed call is the state
before it. -/
def step (t : GitTree) (op : Op) : GitTree :=
  match applyOp t op with
  | .ok t' => t'
  | .error _ => t

/-- Runs a sequence of operations from a freshly constructed tree. -/
def run (ops : List Op) : GitTree :=
  ops.foldl step GitTree.new

/-- A tree state is reachable when some sequence of operations produces it. -/
def Reachable (t : GitTree) : Prop :=
  ∃ ops : List Op, run ops = t

/-- One step along a parent link: `y` is a parent of the commit with id `x`. -/
def parentLink (t : GitTree) (x y : Nat) : Prop :=
  ∃ c ∈ t.commits, c.commitID = x ∧ y ∈ c.parents

/-! ## The structural invariant of reachable trees -/

/-- The invariant bundle maintained by every operation: commit ids are
strictly increasing in insertion order (hence unique) and below the id
counter; parent links point to strictly older existing commits; child
links point to strictly newer existing commits and are strictly
increasing; parent/child links are reciprocal; head, branch tips, the
current branch and every commit's branch tag are live; and only the root
commit is parentless. -/
structure Inv (t : GitTree) : Prop where
  pw : t.commits.Pairwise (fun a b => a.commitID < b.commitID)
  idsLt : ∀ c ∈ t.commits, c.commitID < t.nextCommitID
  parLt : ∀ c ∈ t.commits, ∀ p ∈ c.parents, p < c.commitID
  parMem : ∀ c ∈ t.commits, ∀ p ∈ c.parents, p ∈ t.getAllCommitIDs
  chGt : ∀ c ∈ t.commits, ∀ k ∈ c.children, c.commitID < k
  chMem : ∀ c ∈ t.commits, ∀ k ∈ c.children, k ∈ t.getAllCommitIDs
  chPW : ∀ c ∈ t.commits, c.children.Pairwise (· < ·)
  recipPC : ∀ a ∈ t.commits, ∀ b ∈ t.commits,
    a.commitID ∈ b.parents → b.commitID ∈ a.children
  recipCP : ∀ a ∈ t.commits, ∀ b ∈ t.commits,
    a.commitID ∈ b.children → b.commitID ∈ a.parents
  headMem : t.head ∈ t.getAllCommitIDs
  tipMem : ∀ e ∈ t.branchHeads, e.2 ∈ t.getAllCommitIDs
  cbMem : t.currentBranch ∈ t.branchHeads.map (·.1)
  brMem : ∀ c ∈ t.commits, c.branchID ∈ t.branchHeads.map (·.1)
  rootPar : ∀ c ∈ t.commits, c.parents = [] → c.commitID = 0

/-- The freshly constructed tree satisfies the invariant. -/
theorem inv_new : Inv GitTree.new := by
  constructor <;> decide

theorem getCommit_some {t : GitTree} {i : Nat} {c : Commit}
    (h : t.getCommit i = some c) : c ∈ t.commits ∧ c.commitID = i := by
  refine ⟨List.mem_of_find?_eq_some h, ?_⟩
  have := List.find?_some h
  simpa using this

theorem getTip_some {t : GitTree} {b v : Nat}
    (h : t.getTip b = some v) : ∃ e ∈ t.branchHeads, e.1 = b ∧ e.2 = v := by
  unfold GitTree.getTip at h
  rcases Option.map_eq_some'.mp h with ⟨e, he, rfl⟩
  have hm := List.mem_of_find?_eq_some he
  have hp := List.find?_some he
  exact ⟨e, hm, by simpa using hp, rfl⟩

theorem mem_ids_iff {t : GitTree} {i : Nat} :
    i ∈ t.getAllCommitIDs ↔ ∃ c ∈ t.commits, c.commitID = i := by
  simp [GitTree.getAllCommitIDs, List.mem_map]

theorem mem_ids_lt {t : GitTree} (h : Inv t) {i : Nat}
    (hi : i ∈ t.getAllCommitIDs) : i < t.nextCommitID := by
  rcases mem_ids_iff.mp hi with ⟨c, hc, rfl⟩
  exact h.idsLt c hc

/-- With strictly increasing ids, lookup by id finds exactly the member. -/
theorem find?_eq_some_of_pairwise {l : List Commit} {c : Commit}
    (hpw : l.Pairwise (fun a b => a.commitID < b.commitID)) (hc : c ∈ l) :
    l.find? (fun x => x.commitID = c.commitID) = some c := by
  induction l with
  | nil => cases hc
  | cons a l ih =>
    rcases List.mem_cons.mp hc with rfl | hc
    · exact List.find?_cons_of_pos _ (by simp)
    · have hlt : a.commitID < c.commitID := (List.pairwise_cons.mp hpw).1 c hc
      rw [List.find?_cons_of_neg _ (by simp [Nat.ne_of_lt hlt])]
      exact ih (List.pairwise_cons.mp hpw).2 hc

theorem getCommit_eq_some_of_mem {t : GitTree} (h : Inv t) {c : Commit}
    (hc : c ∈ t.commits) : t.getCommit c.commitID = some c :=
  find?_eq_some_of_pairwise h.pw hc

/-! ### Field lemmas for `linkNew` -/

theorem childLink_commitID (ps : List Nat) (n : Nat) (c : Commit) :
    (childLink ps n c).commitID = c.commitID := by
  unfold childLink; split <;> rfl

theorem childLink_parents (ps : List Nat) (n : Nat) (c : Commit) :
    (childLink ps n c).parents = c.parents := by
  unfold childLink; split <;> rfl

theorem childLink_branchID (ps : List Nat) (n : Nat) (c : Commit) :
    (childLink ps n c).branchID = c.branchID := by
  unfold childLink; split <;> rfl

theorem childLink_children_of_mem {ps : List Nat} {n : Nat} {c : Commit}
    (h : c.commitID ∈ ps) : (childLink ps n c).children = c.children ++ [n] := by
  unfold childLink; rw [if_pos h]

theorem childLink_children_of_not_mem {ps : List Nat} {n : Nat} {c : Commit}
    (h : c.commitID ∉ ps) : (childLink ps n c).children = c.children := by
  unfold childLink; rw [if_neg h]

theorem childLink_children_sub {ps : List Nat} {n : Nat} {c : Commit} {k : Nat}
    (h : k ∈ (childLink ps n c).children) : k ∈ c.children ∨ k = n := by
  unfold childLink at h
  split at h
  · rcases List.mem_append.mp h with h | h
    · exact Or.inl h
    · exact Or.inr (List.mem_singleton.mp h)
  · exact Or.inl h

theorem mem_childLink_children {ps : List Nat} {n : Nat} {c : Commit} {k : Nat}
    (h : k ∈ c.children) : k ∈ (childLink ps n c).children := by
  unfold childLink
  split
  · exact List.mem_append_left _ h
  · exact h

theorem tipUpd_fst (cond : Nat → Bool) (n : Nat) (e : Nat × Nat) :
    (tipUpd cond n e).1 = e.1 := by
  unfold tipUpd; split <;> rfl

theorem linkNew_commits (t : GitTree) (ps : List Nat) (br h' : Nat) (cond : Nat → Bool) :
    (t.linkNew ps br h' cond).commits =
      t.commits.map (childLink ps t.nextCommitID)
      ++ [{ commitID := t.nextCommitID, branchID := br, parents := ps, children := [] }] := rfl

theorem linkNew_nextCommitID (t : GitTree) (ps : List Nat) (br h' : Nat) (cond : Nat → Bool) :
    (t.linkNew ps br h' cond).nextCommitID = t.nextCommitID + 1 := rfl

theorem linkNew_nextBranchID (t : GitTree) (ps : List Nat) (br h' : Nat) (cond : Nat → Bool) :
    (t.linkNew ps br h' cond).nextBranchID = t.nextBranchID := rfl

theorem linkNew_head (t : GitTree) (ps : List Nat) (br h' : Nat) (cond : Nat → Bool) :
    (t.linkNew ps br h' cond).head = h' := rfl

theorem linkNew_currentBranch (t : GitTree) (ps : List Nat) (br h' : Nat) (cond : Nat → Bool) :
    (t.linkNew ps br h' cond).currentBranch = t.currentBranch := rfl

theorem linkNew_branchHeads (t : GitTree) (ps : List Nat) (br h' : Nat) (cond : Nat → Bool) :
    (t.linkNew ps br h' cond).branchHeads = t.branchHeads.map (tipUpd cond t.nextCommitID) := rfl

theorem ids_linkNew (t : GitTree) (ps : List Nat) (br h' : Nat) (cond : Nat → Bool) :
    (t.linkNew ps br h' cond).getAllCommitIDs = t.getAllCommitIDs ++ [t.nextCommitID] := by
  simp only [GitTree.getAllCommitIDs, linkNew_commits, List.map_append, List.map_map]
  congr 1
  apply List.map_congr_left
  intro c _
  simp only [Function.comp_apply]
  exact childLink_commitID _ _ _

theorem mem_linkNew_commits {t : GitTree} {ps : List Nat} {br h' : Nat} {cond : Nat → Bool}
    {x : Commit} (hx : x ∈ (t.linkNew ps br h' cond).commits) :
    (∃ c ∈ t.commits, x = childLink ps t.nextCommitID c)
    ∨ x = { commitID := t.nextCommitID, branchID := br, parents := ps, children := [] } := by
  rw [linkNew_commits] at hx
  rcases List.mem_append.mp hx with hx | hx
  · rcases List.mem_map.mp hx with ⟨c, hc, rfl⟩
    exact Or.inl ⟨c, hc, rfl⟩
  · exact Or.inr (List.mem_singleton.mp hx)

theorem linkNew_keys (t : GitTree) (ps : List Nat) (br h' : Nat) (cond : Nat → Bool) :
    (t.linkNew ps br h' cond).branchHeads.map (·.1) = t.branchHeads.map (·.1) := by
  rw [linkNew_branchHeads, List.map_map]
  apply List.map_congr_left
  intro e _
  simp only [Function.comp_apply]
  exact tipUpd_fst _ _ _

/-- The core graph edit preserves the invariant whenever every requested
parent exists, there is at least one parent, and the new head is either
the new commit or the old head. -/
theorem inv_linkNew {t : GitTree} (h : Inv t) {ps : List Nat} {br h' : Nat} {cond : Nat → Bool}
    (hps : ∀ p ∈ ps, p ∈ t.getAllCommitIDs)
    (hne : ps ≠ [])
    (hh : h' = t.nextCommitID ∨ h' = t.head)
    (hbr : br ∈ t.branchHeads.map (·.1)) :
    Inv (t.linkNew ps br h' cond) := by
  have hidlt : ∀ i ∈ t.getAllCommitIDs, i < t.nextCommitID := fun i hi => mem_ids_lt h hi
  have hpslt : ∀ p ∈ ps, p < t.nextCommitID := fun p hp => hidlt p (hps p hp)
  constructor
  · -- pw
    rw [linkNew_commits, List.pairwise_append]
    refine ⟨?_, by simp, ?_⟩
    · rw [List.pairwise_map]
      exact h.pw.imp fun hab => by simpa [childLink_commitID] using hab
    · intro a ha b hb
      rw [List.mem_singleton] at hb
      subst hb
      rcases List.mem_map.mp ha with ⟨c, hc, rfl⟩
      simpa [childLink_commitID] using h.idsLt c hc
  · -- idsLt
    intro c hc
    rw [linkNew_nextCommitID]
    rcases mem_linkNew_commits hc with ⟨c₀, hm, rfl⟩ | rfl
    · rw [childLink_commitID]
      exact Nat.lt_succ_of_lt (h.idsLt c₀ hm)
    · exact Nat.lt_succ_self _
  · -- parLt
    intro c hc p hp
    rcases mem_linkNew_commits hc with ⟨c₀, hm, rfl⟩ | rfl
    · rw [childLink_parents] at hp
      rw [childLink_commitID]
      exact h.parLt c₀ hm p hp
    · exact hpslt p hp
  · -- parMem
    intro c hc p hp
    rw [ids_linkNew]
    rcases mem_linkNew_commits hc with ⟨c₀, hm, rfl⟩ | rfl
    · rw [childLink_parents] at hp
      exact List.mem_append_left _ (h.parMem c₀ hm p hp)
    · exact List.mem_append_left _ (hps p hp)
  · -- chGt
    intro c hc k hk
    rcases mem_linkNew_commits hc with ⟨c₀, hm, rfl⟩ | rfl
    · rw [childLink_commitID]
      rcases childLink_children_sub hk with hk | rfl
      · exact h.chGt c₀ hm k hk
      · exact h.idsLt c₀ hm
    · exact absurd hk (List.not_mem_nil k)
  · -- chMem
    intro c hc k hk
    rw [ids_linkNew]
    rcases mem_linkNew_commits hc with ⟨c₀, hm, rfl⟩ | rfl
    · rcases childLink_children_sub hk with hk | rfl
      · exact List.mem_append_left _ (h.chMem c₀ hm k hk)
      · exact List.mem_append_right _ (List.mem_singleton_self _)
    · exact absurd hk (List.not_mem_nil k)
  · -- chPW
    intro c hc
    rcases mem_linkNew_commits hc with ⟨c₀, hm, rfl⟩ | rfl
    · by_cases hmem : c₀.commitID ∈ ps
      · rw [childLink_children_of_mem hmem, List.pairwise_append]
        refine ⟨h.chPW c₀ hm, by simp, ?_⟩
        intro a ha b hb
        rw [List.mem_singleton] at hb
        subst hb
        exact hidlt a (h.chMem c₀ hm a ha)
      · rw [childLink_children_of_not_mem hmem]
        exact h.chPW c₀ hm
    · exact List.Pairwise.nil
  · -- recipPC
    intro a ha b hb hab
    rcases mem_linkNew_commits hb with ⟨d, hd, rfl⟩ | rfl
    · rw [childLink_parents] at hab
      rcases mem_linkNew_commits ha with ⟨c, hcm, rfl⟩ | rfl
      · rw [childLink_commitID] at hab
        rw [childLink_commitID]
        exact mem_childLink_children (h.recipPC c hcm d hd hab)
      · exact absurd (hidlt _ (h.parMem d hd _ hab)) (lt_irrefl _)
    · rcases mem_linkNew_commits ha with ⟨c, hcm, rfl⟩ | rfl
      · rw [childLink_commitID] at hab
        rw [childLink_children_of_mem hab]
        exact List.mem_append_right _ (List.mem_singleton_self _)
      · exact absurd (hpslt _ hab) (lt_irrefl _)
  · -- recipCP
    intro a ha b hb hab
    rcases mem_linkNew_commits hb with ⟨d, hd, rfl⟩ | rfl
    · by_cases hd2 : d.commitID ∈ ps
      · rw [childLink_children_of_mem hd2] at hab
        rcases List.mem_append.mp hab with hab' | habn
        · rcases mem_linkNew_commits ha with ⟨c, hcm, rfl⟩ | rfl
          · rw [childLink_commitID] at hab'
            rw [childLink_commitID, childLink_parents]
            exact h.recipCP c hcm d hd hab'
          · exact absurd (hidlt _ (h.chMem d hd _ hab')) (lt_irrefl _)
        · rw [List.mem_singleton] at habn
          rcases mem_linkNew_commits ha with ⟨c, hcm, rfl⟩ | rfl
          · rw [childLink_commitID] at habn
            exact absurd (habn ▸ h.idsLt c hcm) (lt_irrefl _)
          · rw [childLink_commitID]
            exact hd2
      · rw [childLink_children_of_not_mem hd2] at hab
        rcases mem_linkNew_commits ha with ⟨c, hcm, rfl⟩ | rfl
        · rw [childLink_commitID] at hab
          rw [childLink_commitID, childLink_parents]
          exact h.recipCP c hcm d hd hab
        · exact absurd (hidlt _ (h.chMem d hd _ hab)) (lt_irrefl _)
    · exact absurd hab (List.not_mem_nil _)
  · -- headMem
    rw [linkNew_head, ids_linkNew]
    rcases hh with rfl | rfl
    · exact List.mem_append_right _ (List.mem_singleton_self _)
    · exact List.mem_append_left _ h.headMem
  · -- tipMem
    intro e he
    rw [linkNew_branchHeads] at he
    rw [ids_linkNew]
    rcases List.mem_map.mp he with ⟨e₀, he₀, rfl⟩
    by_cases hc2 : cond e₀.1
    · have : tipUpd cond t.nextCommitID e₀ = (e₀.1, t.nextCommitID) := by
        unfold tipUpd
        rw [if_pos hc2]
      rw [this]
      exact List.mem_append_right _ (List.mem_singleton_self _)
    · have : tipUpd cond t.nextCommitID e₀ = e₀ := by
        unfold tipUpd
        rw [if_neg hc2]
      rw [this]
      exact List.mem_append_left _ (h.tipMem e₀ he₀)
  · -- cbMem
    rw [linkNew_currentBranch, linkNew_keys]
    exact h.cbMem
  · -- brMem
    intro c hc
    rw [linkNew_keys]
    rcases mem_linkNew_commits hc with ⟨c₀, hm, rfl⟩ | rfl
    · rw [childLink_branchID]
      exact h.brMem c₀ hm
    · exact hbr
  · -- rootPar
    intro c hc hpar
    rcases mem_linkNew_commits hc with ⟨c₀, hm, rfl⟩ | rfl
    · rw [childLink_parents] at hpar
      rw [childLink_commitID]
      exact h.rootPar c₀ hm hpar
    · exact absurd hpar hne

/-! ### Field lemmas for `undo` -/

theorem childUnlink_commitID (c x : Commit) :
    (childUnlink c x).commitID = x.commitID := by
  unfold childUnlink; split <;> rfl

theorem childUnlink_parents (c x : Commit) :
    (childUnlink c x).parents = x.parents := by
  unfold childUnlink; split <;> rfl

theorem childUnlink_branchID (c x : Commit) :
    (childUnlink c x).branchID = x.branchID := by
  unfold childUnlink; split <;> rfl

theorem childUnlink_children_sub {c x : Commit} {k : Nat}
    (h : k ∈ (childUnlink c x).children) : k ∈ x.children := by
  unfold childUnlink at h
  split at h
  · exact (List.erase_sublist _ _).subset h
  · exact h

theorem childUnlink_of_mem {c x : Commit} (h : x.commitID ∈ c.parents) :
    (childUnlink c x).children = x.children.erase c.commitID := by
  unfold childUnlink; rw [if_pos h]

theorem childUnlink_of_not_mem {c x : Commit} (h : x.commitID ∉ c.parents) :
    childUnlink c x = x := by
  unfold childUnlink; rw [if_neg h]

theorem tipRollback_fst (cid p : Nat) (e : Nat × Nat) :
    (tipRollback cid p e).1 = e.1 := by
  unfold tipRollback; split <;> rfl

/-- Children lists are duplicate-free in invariant states. -/
theorem children_nodup {t : GitTree} (h : Inv t) {c : Commit} (hc : c ∈ t.commits) :
    c.children.Nodup :=
  (h.chPW c hc).imp Nat.ne_of_lt

/-- `undo` preserves the invariant. -/
theorem inv_undo {t : GitTree} (h : Inv t) : Inv t.undo := by
  unfold GitTree.undo
  split
  · exact h
  next c hlast =>
    split
    · exact h
    next hlen =>
      split
      · exact h
      next p rest hp =>
        have hsplit : t.commits.dropLast ++ [c] = t.commits :=
          List.dropLast_append_getLast? c hlast
        have hsubL : ∀ x ∈ t.commits.dropLast, x ∈ t.commits := by
          intro x hx
          rw [← hsplit]
          exact List.mem_append_left _ hx
        have hmemc : c ∈ t.commits := by
          rw [← hsplit]
          exact List.mem_append_right _ (List.mem_singleton_self _)
        have hpw' : (t.commits.dropLast ++ [c]).Pairwise
            (fun a b => a.commitID < b.commitID) := by
          rw [hsplit]; exact h.pw
        rcases List.pairwise_append.mp hpw' with ⟨pwL, _, hcross⟩
        have maxc : ∀ x ∈ t.commits.dropLast, x.commitID < c.commitID :=
          fun x hx => hcross x hx c (List.mem_singleton_self _)
        have idsplit : t.getAllCommitIDs
            = t.commits.dropLast.map (·.commitID) ++ [c.commitID] := by
          conv_lhs => rw [GitTree.getAllCommitIDs, ← hsplit]
          rw [List.map_append]
          rfl
        have memL_ids : ∀ i ∈ t.getAllCommitIDs, i ≠ c.commitID →
            i ∈ t.commits.dropLast.map (·.commitID) := by
          intro i hi hne
          rw [idsplit] at hi
          rcases List.mem_append.mp hi with hi | hi
          · exact hi
          · exact absurd (List.mem_singleton.mp hi) hne
        have newids : (t.commits.dropLast.map (childUnlink c)).map (·.commitID)
            = t.commits.dropLast.map (·.commitID) := by
          rw [List.map_map]
          apply List.map_congr_left
          intro x _
          simp only [Function.comp_apply]
          exact childUnlink_commitID _ _
        have hpc : p ∈ c.parents := by
          rw [hp]
          exact List.mem_cons_self p rest
        have hpmem : p ∈ t.getAllCommitIDs := h.parMem c hmemc p hpc
        have hplt : p < c.commitID := h.parLt c hmemc p hpc
        constructor
        · -- pw
          rw [List.pairwise_map]
          exact pwL.imp fun hab => by simpa [childUnlink_commitID] using hab
        · -- idsLt
          intro x hx
          rcases List.mem_map.mp hx with ⟨x₀, hx₀, rfl⟩
          rw [childUnlink_commitID]
          exact h.idsLt x₀ (hsubL x₀ hx₀)
        · -- parLt
          intro x hx q hq
          rcases List.mem_map.mp hx with ⟨x₀, hx₀, rfl⟩
          rw [childUnlink_parents] at hq
          rw [childUnlink_commitID]
          exact h.parLt x₀ (hsubL x₀ hx₀) q hq
        · -- parMem
          intro x hx q hq
          rcases List.mem_map.mp hx with ⟨x₀, hx₀, rfl⟩
          rw [childUnlink_parents] at hq
          show q ∈ (t.commits.dropLast.map (childUnlink c)).map (·.commitID)
          rw [newids]
          have hqlt : q < c.commitID :=
            lt_trans (h.parLt x₀ (hsubL x₀ hx₀) q hq) (maxc x₀ hx₀)
          exact memL_ids q (h.parMem x₀ (hsubL x₀ hx₀) q hq) (Nat.ne_of_lt hqlt)
        · -- chGt
          intro x hx k hk
          rcases List.mem_map.mp hx with ⟨x₀, hx₀, rfl⟩
          rw [childUnlink_commitID]
          exact h.chGt x₀ (hsubL x₀ hx₀) k (childUnlink_children_sub hk)
        · -- chMem
          intro x hx k hk
          rcases List.mem_map.mp hx with ⟨x₀, hx₀, rfl⟩
          show k ∈ (t.commits.dropLast.map (childUnlink c)).map (·.commitID)
          rw [newids]
          by_cases hxp : x₀.commitID ∈ c.parents
          · rw [childUnlink_of_mem hxp] at hk
            rcases (children_nodup h (hsubL x₀ hx₀)).mem_erase_iff.mp hk with ⟨hkne, hkmem⟩
            exact memL_ids k (h.chMem x₀ (hsubL x₀ hx₀) k hkmem) hkne
          · rw [childUnlink_of_not_mem hxp] at hk
            have hkne : k ≠ c.commitID := by
              intro hkc
              subst hkc
              exact hxp (h.recipCP c hmemc x₀ (hsubL x₀ hx₀) hk)
            exact memL_ids k (h.chMem x₀ (hsubL x₀ hx₀) k hk) hkne
        · -- chPW
          intro x hx
          rcases List.mem_map.mp hx with ⟨x₀, hx₀, rfl⟩
          by_cases hxp : x₀.commitID ∈ c.parents
          · rw [childUnlink_of_mem hxp]
            exact (h.chPW x₀ (hsubL x₀ hx₀)).sublist (List.erase_sublist _ _)
          · rw [childUnlink_of_not_mem hxp]
            exact h.chPW x₀ (hsubL x₀ hx₀)
        · -- recipPC
          intro a ha b hb hab
          rcases List.mem_map.mp ha with ⟨x, hxm, rfl⟩
          rcases List.mem_map.mp hb with ⟨y, hym, rfl⟩
          rw [childUnlink_parents] at hab
          rw [childUnlink_commitID] at hab
          have hyx := h.recipPC x (hsubL x hxm) y (hsubL y hym) hab
          rw [childUnlink_commitID]
          by_cases hxp : x.commitID ∈ c.parents
          · rw [childUnlink_of_mem hxp]
            exact (children_nodup h (hsubL x hxm)).mem_erase_iff.mpr
              ⟨Nat.ne_of_lt (maxc y hym), hyx⟩
          · rw [childUnlink_of_not_mem hxp]
            exact hyx
        · -- recipCP
          intro a ha b hb hab
          rcases List.mem_map.mp ha with ⟨x, hxm, rfl⟩
          rcases List.mem_map.mp hb with ⟨y, hym, rfl⟩
          rw [childUnlink_commitID] at hab
          rw [childUnlink_commitID, childUnlink_parents]
          exact h.recipCP x (hsubL x hxm) y (hsubL y hym) (childUnlink_children_sub hab)
        · -- headMem
          show p ∈ (t.commits.dropLast.map (childUnlink c)).map (·.commitID)
          rw [newids]
          exact memL_ids p hpmem (Nat.ne_of_lt hplt)
        · -- tipMem
          intro e he
          rcases List.mem_map.mp he with ⟨e₀, he₀, rfl⟩
          show (tipRollback c.commitID p e₀).2
            ∈ (t.commits.dropLast.map (childUnlink c)).map (·.commitID)
          rw [newids]
          by_cases hec : e₀.2 = c.commitID
          · have : tipRollback c.commitID p e₀ = (e₀.1, p) := by
              unfold tipRollback
              rw [if_pos hec]
            rw [this]
            exact memL_ids p hpmem (Nat.ne_of_lt hplt)
          · have : tipRollback c.commitID p e₀ = e₀ := by
              unfold tipRollback
              rw [if_neg hec]
            rw [this]
            exact memL_ids e₀.2 (h.tipMem e₀ he₀) hec
        · -- cbMem
          show t.currentBranch ∈ (t.branchHeads.map (tipRollback c.commitID p)).map (·.1)
          rw [List.map_map]
          have : (fun e : Nat × Nat => e.1) ∘ tipRollback c.commitID p
              = fun e : Nat × Nat => e.1 := by
            funext e
            simp only [Function.comp_apply]
            exact tipRollback_fst _ _ _
          rw [this]
          exact h.cbMem
        · -- brMem
          intro x hx
          rcases List.mem_map.mp hx with ⟨x₀, hx₀, rfl⟩
          show (childUnlink c x₀).branchID
            ∈ (t.branchHeads.map (tipRollback c.commitID p)).map (·.1)
          rw [childUnlink_branchID, List.map_map]
          have : (fun e : Nat × Nat => e.1) ∘ tipRollback c.commitID p
              = fun e : Nat × Nat => e.1 := by
            funext e
            simp only [Function.comp_apply]
            exact tipRollback_fst _ _ _
          rw [this]
          exact h.brMem x₀ (hsubL x₀ hx₀)
        · -- rootPar
          intro x hx hpar
          rcases List.mem_map.mp hx with ⟨x₀, hx₀, rfl⟩
          rw [childUnlink_parents] at hpar
          rw [childUnlink_commitID]
          exact h.rootPar x₀ (hsubL x₀ hx₀) hpar

/-! ### Invariant preservation for each public operation -/

theorem inv_addCommit {t t' : GitTree} (h : Inv t) (hok : t.addCommit = .ok t') :
    Inv t' := by
  unfold GitTree.addCommit at hok
  split at hok
  · cases hok
  next hc heq =>
    split at hok
    · cases hok
      refine inv_linkNew h ?_ (by simp) (Or.inl rfl) h.cbMem
      intro p hp
      rw [List.mem_singleton] at hp
      subst hp
      exact h.headMem
    · cases hok

theorem inv_addCommitTo {t t' : GitTree} (h : Inv t) {pid : Nat}
    (hok : t.addCommitTo pid = .ok t') : Inv t' := by
  unfold GitTree.addCommitTo at hok
  split at hok
  · cases hok
  next p heq =>
    split at hok
    · cases hok
      rcases getCommit_some heq with ⟨hmem, hid⟩
      refine inv_linkNew h ?_ (by simp) ?_ (h.brMem p hmem)
      · intro q hq
        rw [List.mem_singleton] at hq
        subst hq
        exact mem_ids_iff.mpr ⟨p, hmem, hid⟩
      · by_cases hhd : t.head = pid
        · rw [if_pos hhd]
          exact Or.inl rfl
        · rw [if_neg hhd]
          exact Or.inr rfl
    · cases hok

theorem inv_branch {t : GitTree} (h : Inv t) : Inv (t.branch).1 := by
  show Inv { t with
    nextBranchID := t.nextBranchID + 1
    branchHeads := t.branchHeads ++ [(t.nextBranchID, t.head)] }
  constructor
  · exact h.pw
  · exact h.idsLt
  · exact h.parLt
  · exact h.parMem
  · exact h.chGt
  · exact h.chMem
  · exact h.chPW
  · exact h.recipPC
  · exact h.recipCP
  · exact h.headMem
  · intro e he
    rcases List.mem_append.mp he with he | he
    · exact h.tipMem e he
    · rw [List.mem_singleton] at he
      subst he
      exact h.headMem
  · rw [List.map_append]
    exact List.mem_append_left _ h.cbMem
  · intro c hc
    rw [List.map_append]
    exact List.mem_append_left _ (h.brMem c hc)
  · exact h.rootPar

theorem inv_checkout {t t' : GitTree} (h : Inv t) {b : Nat}
    (hok : t.checkout b = .ok t') : Inv t' := by
  unfold GitTree.checkout at hok
  split at hok
  · cases hok
  next tip heq =>
    cases hok
    rcases getTip_some heq with ⟨e, he, he1, he2⟩
    constructor
    · exact h.pw
    · exact h.idsLt
    · exact h.parLt
    · exact h.parMem
    · exact h.chGt
    · exact h.chMem
    · exact h.chPW
    · exact h.recipPC
    · exact h.recipCP
    · rw [← he2]
      exact h.tipMem e he
    · exact h.tipMem
    · exact List.mem_map.mpr ⟨e, he, he1⟩
    · exact h.brMem
    · exact h.rootPar

theorem inv_checkoutCommit {t t' : GitTree} (h : Inv t) {id : Nat}
    (hok : t.checkoutCommit id = .ok t') : Inv t' := by
  unfold GitTree.checkoutCommit at hok
  split at hok
  · cases hok
  next c heq =>
    cases hok
    rcases getCommit_some heq with ⟨hmem, hid⟩
    constructor
    · exact h.pw
    · exact h.idsLt
    · exact h.parLt
    · exact h.parMem
    · exact h.chGt
    · exact h.chMem
    · exact h.chPW
    · exact h.recipPC
    · exact h.recipCP
    · exact mem_ids_iff.mpr ⟨c, hmem, hid⟩
    · exact h.tipMem
    · exact h.brMem c hmem
    · exact h.brMem
    · exact h.rootPar

theorem inv_merge {t t' : GitTree} (h : Inv t) {b : Nat}
    (hok : t.merge b = .ok t') : Inv t' := by
  unfold GitTree.merge at hok
  split at hok
  · cases hok
  next tip heq =>
    cases hok
    rcases getTip_some heq with ⟨e, he, he1, he2⟩
    refine inv_linkNew h ?_ (by simp) (Or.inl rfl) h.cbMem
    intro q hq
    rcases List.mem_cons.mp hq with rfl | hq
    · exact h.headMem
    · rw [List.mem_singleton] at hq
      subst hq
      rw [← he2]
      exact h.tipMem e he

theorem inv_mergeCommits {t t' : GitTree} (h : Inv t) {pid oid : Nat}
    (hok : t.mergeCommits pid oid = .ok t') : Inv t' := by
  unfold GitTree.mergeCommits at hok
  split at hok
  next p x hp hq =>
    cases hok
    rcases getCommit_some hp with ⟨hpm, hpid⟩
    rcases getCommit_some hq with ⟨hqm, hqid⟩
    refine inv_linkNew h ?_ (by simp) (Or.inr rfl) (h.brMem p hpm)
    intro q' hq'
    rcases List.mem_cons.mp hq' with rfl | hq'
    · exact mem_ids_iff.mpr ⟨p, hpm, hpid⟩
    · rw [List.mem_singleton] at hq'
      subst hq'
      exact mem_ids_iff.mpr ⟨x, hqm, hqid⟩
  next => cases hok

theorem inv_applyOp {t t' : GitTree} (h : Inv t) {op : Op}
    (hok : applyOp t op = .ok t') : Inv t' := by
  cases op with
  | addCommit => exact inv_addCommit h hok
  | addCommitTo p => exact inv_addCommitTo h hok
  | branch =>
    cases hok
    exact inv_branch h
  | checkout b => exact inv_checkout h hok
  | checkoutCommit c => exact inv_checkoutCommit h hok
  | merge b => exact inv_merge h hok
  | mergeCommits p o => exact inv_mergeCommits h hok
  | undo =>
    cases hok
    exact inv_undo h
  | reset =>
    cases hok
    exact inv_new

theorem inv_step {t : GitTree} (h : Inv t) (op : Op) : Inv (step t op) := by
  unfold step
  split
  next t' hok => exact inv_applyOp h hok
  next => exact h

theorem inv_foldl (ops : List Op) : ∀ t : GitTree, Inv t → Inv (ops.foldl step t) := by
  induction ops with
  | nil => exact fun t h => h
  | cons op ops ih => exact fun t h => ih _ (inv_step h op)

/-- Every state produced by a sequence of operations satisfies the
invariant bundle. -/
theorem inv_run (ops : List Op) : Inv (run ops) :=
  inv_foldl ops GitTree.new inv_new

/-- Every reachable tree satisfies the invariant bundle. -/
theorem reachable_inv {t : GitTree} (h : Reachable t) : Inv t := by
  rcases h with ⟨ops, rfl⟩
  exact inv_run ops

/-! ### How lookups read through the core graph edit -/

theorem getCommit_linkNew_old {t : GitTree} {i : Nat} {c : Commit}
    (hc : t.getCommit i = some c) (ps : List Nat) (br h' : Nat) (cond : Nat → Bool) :
    (t.linkNew ps br h' cond).getCommit i = some (childLink ps t.nextCommitID c) := by
  unfold GitTree.getCommit at hc ⊢
  rw [linkNew_commits, List.find?_append, List.find?_map]
  have hpf : ((fun x : Commit => decide (x.commitID = i)) ∘ childLink ps t.nextCommitID)
      = fun x : Commit => decide (x.commitID = i) := by
    funext x
    simp only [Function.comp_apply, childLink_commitID]
  rw [hpf, hc]
  rfl

theorem getCommit_linkNew_new {t : GitTree} (h : Inv t) (ps : List Nat) (br h' : Nat)
    (cond : Nat → Bool) :
    (t.linkNew ps br h' cond).getCommit t.nextCommitID
      = some { commitID := t.nextCommitID, branchID := br, parents := ps, children := [] } := by
  unfold GitTree.getCommit
  rw [linkNew_commits, List.find?_append, List.find?_map]
  have hnone : t.commits.find?
      ((fun x : Commit => decide (x.commitID = t.nextCommitID)) ∘ childLink ps t.nextCommitID)
      = none := by
    rw [List.find?_eq_none]
    intro x hx
    simp only [Function.comp_apply, childLink_commitID, decide_eq_true_eq]
    exact Nat.ne_of_lt (h.idsLt x hx)
  rw [hnone]
  simp

theorem getTip_linkNew_true {t : GitTree} {k : Nat} {ps : List Nat} {br h' : Nat}
    {cond : Nat → Bool} (hk : k ∈ t.branchHeads.map (·.1)) (hcond : cond k = true) :
    (t.linkNew ps br h' cond).getTip k = some t.nextCommitID := by
  unfold GitTree.getTip
  rw [linkNew_branchHeads, List.find?_map]
  have hpf : ((fun e : Nat × Nat => decide (e.1 = k)) ∘ tipUpd cond t.nextCommitID)
      = fun e : Nat × Nat => decide (e.1 = k) := by
    funext e
    simp only [Function.comp_apply, tipUpd_fst]
  rw [hpf]
  have hsome : (t.branchHeads.find? fun e : Nat × Nat => decide (e.1 = k)).isSome := by
    rw [List.find?_isSome]
    rcases List.mem_map.mp hk with ⟨e, he, rfl⟩
    exact ⟨e, he, by simp⟩
  rcases Option.isSome_iff_exists.mp hsome with ⟨e, he⟩
  have he1 : e.1 = k := by simpa using List.find?_some he
  have : tipUpd cond t.nextCommitID e = (e.1, t.nextCommitID) := by
    unfold tipUpd
    rw [if_pos (he1 ▸ hcond)]
  rw [he, Option.map_map, Option.map_some']
  simp [this]

/-! ### Characterization equations for the operations -/

theorem addCommit_of_some {t : GitTree} {hc : Commit}
    (hhc : t.getCommit t.head = some hc) (hch : hc.children = []) :
    t.addCommit = .ok (t.linkNew [t.head] t.currentBranch t.nextCommitID
      (fun b => b = t.currentBranch)) := by
  unfold GitTree.addCommit
  split
  next heq => simp [hhc] at heq
  next hc₂ heq =>
    rw [hhc] at heq
    cases heq
    rw [if_pos hch]

theorem addCommit_of_nonempty {t : GitTree} {hc : Commit}
    (hhc : t.getCommit t.head = some hc) (hch : hc.children ≠ []) :
    t.addCommit = .error .invalidArgument := by
  unfold GitTree.addCommit
  split
  · rfl
  next hc₂ heq =>
    rw [hhc] at heq
    cases heq
    rw [if_neg hch]

theorem addCommitTo_of_some {t : GitTree} {pid : Nat} {p : Commit}
    (hp : t.getCommit pid = some p) (hch : p.children = []) :
    t.addCommitTo pid = .ok (t.linkNew [pid] p.branchID
      (if t.head = pid then t.nextCommitID else t.head) (fun b => b = p.branchID)) := by
  unfold GitTree.addCommitTo
  split
  next heq => simp [hp] at heq
  next p₂ heq =>
    rw [hp] at heq
    cases heq
    rw [if_pos hch]

theorem addCommitTo_of_nonempty {t : GitTree} {pid : Nat} {p : Commit}
    (hp : t.getCommit pid = some p) (hch : p.children ≠ []) :
    t.addCommitTo pid = .error .invalidArgument := by
  unfold GitTree.addCommitTo
  split
  · rfl
  next p₂ heq =>
    rw [hp] at heq
    cases heq
    rw [if_neg hch]

theorem addCommitTo_of_none {t : GitTree} {pid : Nat}
    (hp : t.getCommit pid = none) :
    t.addCommitTo pid = .error .invalidArgument := by
  unfold GitTree.addCommitTo
  split
  · rfl
  next p₂ heq => simp [hp] at heq

theorem merge_of_some {t : GitTree} {b tip : Nat}
    (htip : t.getTip b = some tip) :
    t.merge b = .ok (t.linkNew [t.head, tip] t.currentBranch t.nextCommitID
      (fun k => k = t.currentBranch || k = b)) := by
  unfold GitTree.merge
  split
  next heq => simp [htip] at heq
  next tip₂ heq =>
    rw [htip] at heq
    cases heq
    rfl

theorem merge_of_none {t : GitTree} {b : Nat}
    (htip : t.getTip b = none) :
    t.merge b = .error .invalidArgument := by
  unfold GitTree.merge
  split
  · rfl
  next tip₂ heq => simp [htip] at heq

theorem undo_of_short {t : GitTree} (hlen : t.commits.length ≤ 1) : t.undo = t := by
  unfold GitTree.undo
  split
  · rfl
  next c heq => rw [if_pos hlen]

theorem undo_of_last {t : GitTree} {c : Commit} (hlast : t.commits.getLast? = some c)
    (hlen : ¬t.commits.length ≤ 1) {p : Nat} {rest : List Nat}
    (hp : c.parents = p :: rest) :
    t.undo = { t with
      head := p
      commits := t.commits.dropLast.map (childUnlink c)
      branchHeads := t.branchHeads.map (tipRollback c.commitID p) } := by
  unfold GitTree.undo
  split
  next heq => simp [hlast] at heq
  next c₂ heq =>
    rw [hlast] at heq
    cases heq
    rw [if_neg hlen]
    split
    next heq2 =>
      rw [hp] at heq2
      cases heq2
    next p₂ rest₂ heq2 =>
      rw [hp] at heq2
      cases heq2
      rfl

/-! ## Claim theorems -/

/-- **C1**: for every reachable `GitTree` whose head commit has no child,
`addCommit()` creates exactly one new commit whose single parent is the
head and whose branch id is the current branch, adds the reciprocal child
link on the old head, and moves both head and the current branch's tip to
the new commit; if the head already has a child, `addCommit()` fails with
an invalid-argument error. -/
theorem addCommit_spec (t : GitTree) (h : Reachable t) (hc : Commit)
    (hhc : t.getCommit t.head = some hc) :
    (hc.children = [] →
      ∃ t' : GitTree, t.addCommit = .ok t' ∧
        t'.commits.getLast? = some { commitID := t.nextCommitID, branchID := t.currentBranch, parents := [t.head], children := [] } ∧
        t'.getAllCommitIDs = t.getAllCommitIDs ++ [t.nextCommitID] ∧
        (∀ hc' : Commit, t'.getCommit t.head = some hc' →
          hc'.children = hc.children ++ [t.nextCommitID]) ∧
        t'.head = t.nextCommitID ∧
        t'.getTip t.currentBranch = some t.nextCommitID) ∧
    (hc.children ≠ [] → t.addCommit = .error .invalidArgument) := by
  have hinv := reachable_inv h
  refine ⟨fun hempty => ⟨_, addCommit_of_some hhc hempty, ?_, ?_, ?_, rfl, ?_⟩,
    fun hne => addCommit_of_nonempty hhc hne⟩
  · rw [linkNew_commits, List.getLast?_concat]
  · exact ids_linkNew t _ _ _ _
  · intro hc' hhc'
    rw [getCommit_linkNew_old hhc] at hhc'
    cases hhc'
    have hmem : hc.commitID ∈ [t.head] := by
      rw [List.mem_singleton]
      exact (getCommit_some hhc).2
    rw [childLink_children_of_mem hmem]
  · exact getTip_linkNew_true hinv.cbMem (by simp)

theorem addCommit_spec_witness :
    Reachable GitTree.new ∧
    GitTree.new.getCommit GitTree.new.head
      = some { commitID := 0, branchID := 0, parents := [], children := [] } ∧
    ((({ commitID := 0, branchID := 0, parents := [], children := [] } : Commit).children = [] →
      ∃ t' : GitTree, GitTree.new.addCommit = .ok t' ∧
        t'.commits.getLast? = some { commitID := GitTree.new.nextCommitID, branchID := GitTree.new.currentBranch, parents := [GitTree.new.head], children := [] } ∧
        t'.getAllCommitIDs = GitTree.new.getAllCommitIDs ++ [GitTree.new.nextCommitID] ∧
        (∀ hc' : Commit, t'.getCommit GitTree.new.head = some hc' →
          hc'.children = ({ commitID := 0, branchID := 0, parents := [], children := [] } : Commit).children ++ [GitTree.new.nextCommitID]) ∧
        t'.head = GitTree.new.nextCommitID ∧
        t'.getTip GitTree.new.currentBranch = some GitTree.new.nextCommitID) ∧
    (({ commitID := 0, branchID := 0, parents := [], children := [] } : Commit).children ≠ [] →
      GitTree.new.addCommit = .error .invalidArgument)) :=
  ⟨⟨[], rfl⟩, rfl, addCommit_spec GitTree.new ⟨[], rfl⟩ _ rfl⟩

/-- **C2** (counterexample): from a fresh tree, whose head has no child,
`addCommit()` twice in a row succeeds BOTH times — the first call checks
out the new, childless commit, so the second call's precondition holds
again and it returns ok (three commits), not an invalid-argument error. -/
theorem addCommit_twice_cex :
    GitTree.new.addCommit = Except.ok (run [Op.addCommit]) ∧
    (run [Op.addCommit]).addCommit = Except.ok (run [Op.addCommit, Op.addCommit]) ∧
    (run [Op.addCommit, Op.addCommit]).getNumCommits = 3 :=
  ⟨rfl, rfl, rfl⟩

/-- **C2** (amended): for every reachable tree whose head commit has no
child, calling `addCommit()` twice in a row with no intervening operation
succeeds both times: the first call advances head to the new childless
commit, so the second call's precondition holds again. -/
theorem addCommit_twice_ok (t : GitTree) (h : Reachable t) (hc : Commit)
    (hhc : t.getCommit t.head = some hc) (hch : hc.children = []) :
    ∃ t1 t2 : GitTree, t.addCommit = .ok t1 ∧ t1.addCommit = .ok t2 := by
  have hinv := reachable_inv h
  have h1 := addCommit_of_some hhc hch
  have h2 := addCommit_of_some
    (getCommit_linkNew_new hinv [t.head] t.currentBranch t.nextCommitID
      (fun b => b = t.currentBranch)) rfl
  exact ⟨_, _, h1, h2⟩

theorem addCommit_twice_ok_witness :
    Reachable GitTree.new ∧
    GitTree.new.getCommit GitTree.new.head
      = some { commitID := 0, branchID := 0, parents := [], children := [] } ∧
    ({ commitID := 0, branchID := 0, parents := [], children := [] } : Commit).children = [] ∧
    ∃ t1 t2 : GitTree, GitTree.new.addCommit = .ok t1 ∧ t1.addCommit = .ok t2 :=
  ⟨⟨[], rfl⟩, rfl, rfl, addCommit_twice_ok GitTree.new ⟨[], rfl⟩ _ rfl rfl⟩

/-- **C3**: for every valid `parentId` whose commit has no child,
`addCommit(parentId)` creates the new commit as a child of that parent on
the parent's branch with reciprocal links, and leaves head unchanged
unless the named parent was the head (in which case head advances); it
fails with invalid-argument if `parentId` is unknown or the parent
already has a child. -/
theorem addCommitTo_spec (t : GitTree) (h : Reachable t) (pid : Nat) :
    (∀ p : Commit, t.getCommit pid = some p →
      (p.children = [] →
        ∃ t' : GitTree, t.addCommitTo pid = .ok t' ∧
          t'.commits.getLast? = some { commitID := t.nextCommitID, branchID := p.branchID, parents := [pid], children := [] } ∧
          t'.getAllCommitIDs = t.getAllCommitIDs ++ [t.nextCommitID] ∧
          (∀ p' : Commit, t'.getCommit pid = some p' →
            p'.children = p.children ++ [t.nextCommitID]) ∧
          (t.head = pid → t'.head = t.nextCommitID) ∧
          (t.head ≠ pid → t'.head = t.head)) ∧
      (p.children ≠ [] → t.addCommitTo pid = .error .invalidArgument)) ∧
    (t.getCommit pid = none → t.addCommitTo pid = .error .invalidArgument) := by
  refine ⟨fun p hp => ⟨fun hch => ⟨_, addCommitTo_of_some hp hch, ?_, ?_, ?_, ?_, ?_⟩,
    fun hne => addCommitTo_of_nonempty hp hne⟩, fun hnone => addCommitTo_of_none hnone⟩
  · rw [linkNew_commits, List.getLast?_concat]
  · exact ids_linkNew t _ _ _ _
  · intro p' hp'
    rw [getCommit_linkNew_old hp] at hp'
    cases hp'
    have hmem : p.commitID ∈ [pid] := by
      rw [List.mem_singleton]
      exact (getCommit_some hp).2
    rw [childLink_children_of_mem hmem]
  · intro hhd
    show (if t.head = pid then t.nextCommitID else t.head) = t.nextCommitID
    rw [if_pos hhd]
  · intro hhd
    show (if t.head = pid then t.nextCommitID else t.head) = t.head
    rw [if_neg hhd]

theorem addCommitTo_spec_witness :
    Reachable GitTree.new ∧
    ((∀ p : Commit, GitTree.new.getCommit 0 = some p →
      (p.children = [] →
        ∃ t' : GitTree, GitTree.new.addCommitTo 0 = .ok t' ∧
          t'.commits.getLast? = some { commitID := GitTree.new.nextCommitID, branchID := p.branchID, parents := [0], children := [] } ∧
          t'.getAllCommitIDs = GitTree.new.getAllCommitIDs ++ [GitTree.new.nextCommitID] ∧
          (∀ p' : Commit, t'.getCommit 0 = some p' →
            p'.children = p.children ++ [GitTree.new.nextCommitID]) ∧
          (GitTree.new.head = 0 → t'.head = GitTree.new.nextCommitID) ∧
          (GitTree.new.head ≠ 0 → t'.head = GitTree.new.head)) ∧
      (p.children ≠ [] → GitTree.new.addCommitTo 0 = .error .invalidArgument)) ∧
    (GitTree.new.getCommit 0 = none → GitTree.new.addCommitTo 0 = .error .invalidArgument)) :=
  ⟨⟨[], rfl⟩, addCommitTo_spec GitTree.new ⟨[], rfl⟩ 0⟩

/-- **C4**: for every reachable tree and branch id `b` that is valid and
distinct from the current branch, `merge(b)` creates exactly one new
commit whose parents are exactly the prior head and the prior tip of `b`
(in that order), appends the new commit as a child of both of those
commits, makes it the head, and updates both branches' tips to it;
`merge(b)` fails with invalid-argument if `b` is unknown. -/
theorem merge_spec (t : GitTree) (h : Reachable t) (b : Nat) :
    (∀ tip : Nat, t.getTip b = some tip → b ≠ t.currentBranch →
      ∃ t' : GitTree, t.merge b = .ok t' ∧
        t'.commits.getLast? = some { commitID := t.nextCommitID, branchID := t.currentBranch, parents := [t.head, tip], children := [] } ∧
        t'.getAllCommitIDs = t.getAllCommitIDs ++ [t.nextCommitID] ∧
        (∀ hc' : Commit, t'.getCommit t.head = some hc' → t.nextCommitID ∈ hc'.children) ∧
        (∀ tc' : Commit, t'.getCommit tip = some tc' → t.nextCommitID ∈ tc'.children) ∧
        t'.head = t.nextCommitID ∧
        t'.getTip t.currentBranch = some t.nextCommitID ∧
        t'.getTip b = some t.nextCommitID) ∧
    (t.getTip b = none → t.merge b = .error .invalidArgument) := by
  have hinv := reachable_inv h
  refine ⟨fun tip htip hbne => ⟨_, merge_of_some htip, ?_, ?_, ?_, ?_, rfl, ?_, ?_⟩,
    fun hnone => merge_of_none hnone⟩
  · rw [linkNew_commits, List.getLast?_concat]
  · exact ids_linkNew t _ _ _ _
  · intro hc' hhc'
    rcases mem_ids_iff.mp hinv.headMem with ⟨hc₀, hm, hid⟩
    have hg : t.getCommit t.head = some hc₀ := by
      rw [← hid]
      exact getCommit_eq_some_of_mem hinv hm
    rw [getCommit_linkNew_old hg] at hhc'
    cases hhc'
    have hmem : hc₀.commitID ∈ [t.head, tip] := by
      rw [hid]
      exact List.mem_cons_self _ _
    rw [childLink_children_of_mem hmem]
    exact List.mem_append_right _ (List.mem_singleton_self _)
  · intro tc' htc'
    have htm : tip ∈ t.getAllCommitIDs := by
      rcases getTip_some htip with ⟨e, he, he1, he2⟩
      rw [← he2]
      exact hinv.tipMem e he
    rcases mem_ids_iff.mp htm with ⟨tc₀, hm, hid⟩
    have hg : t.getCommit tip = some tc₀ := by
      rw [← hid]
      exact getCommit_eq_some_of_mem hinv hm
    rw [getCommit_linkNew_old hg] at htc'
    cases htc'
    have hmem : tc₀.commitID ∈ [t.head, tip] := by
      rw [hid]
      exact List.mem_cons_of_mem _ (List.mem_singleton_self _)
    rw [childLink_children_of_mem hmem]
    exact List.mem_append_right _ (List.mem_singleton_self _)
  · exact getTip_linkNew_true hinv.cbMem (by simp)
  · have hbk : b ∈ t.branchHeads.map (·.1) := by
      rcases getTip_some htip with ⟨e, he, he1, he2⟩
      exact List.mem_map.mpr ⟨e, he, he1⟩
    exact getTip_linkNew_true hbk (by simp)

theorem merge_spec_witness :
    Reachable (run [Op.addCommit, Op.branch, Op.checkout 1, Op.addCommit, Op.checkout 0]) ∧
    ((∀ tip : Nat,
      (run [Op.addCommit, Op.branch, Op.checkout 1, Op.addCommit, Op.checkout 0]).getTip 1 = some tip →
      1 ≠ (run [Op.addCommit, Op.branch, Op.checkout 1, Op.addCommit, Op.checkout 0]).currentBranch →
      ∃ t' : GitTree,
        (run [Op.addCommit, Op.branch, Op.checkout 1, Op.addCommit, Op.checkout 0]).merge 1 = .ok t' ∧
        t'.commits.getLast? = some { commitID := (run [Op.addCommit, Op.branch, Op.checkout 1, Op.addCommit, Op.checkout 0]).nextCommitID, branchID := (run [Op.addCommit, Op.branch, Op.checkout 1, Op.addCommit, Op.checkout 0]).currentBranch, parents := [(run [Op.addCommit, Op.branch, Op.checkout 1, Op.addCommit, Op.checkout 0]).head, tip], children := [] } ∧
        t'.getAllCommitIDs = (run [Op.addCommit, Op.branch, Op.checkout 1, Op.addCommit, Op.checkout 0]).getAllCommitIDs ++ [(run [Op.addCommit, Op.branch, Op.checkout 1, Op.addCommit, Op.checkout 0]).nextCommitID] ∧
        (∀ hc' : Commit, t'.getCommit (run [Op.addCommit, Op.branch, Op.checkout 1, Op.addCommit, Op.checkout 0]).head = some hc' → (run [Op.addCommit, Op.branch, Op.checkout 1, Op.addCommit, Op.checkout 0]).nextCommitID ∈ hc'.children) ∧
        (∀ tc' : Commit, t'.getCommit tip = some tc' → (run [Op.addCommit, Op.branch, Op.checkout 1, Op.addCommit, Op.checkout 0]).nextCommitID ∈ tc'.children) ∧
        t'.head = (run [Op.addCommit, Op.branch, Op.checkout 1, Op.addCommit, Op.checkout 0]).nextCommitID ∧
        t'.getTip (run [Op.addCommit, Op.branch, Op.checkout 1, Op.addCommit, Op.checkout 0]).currentBranch = some (run [Op.addCommit, Op.branch, Op.checkout 1, Op.addCommit, Op.checkout 0]).nextCommitID ∧
        t'.getTip 1 = some (run [Op.addCommit, Op.branch, Op.checkout 1, Op.addCommit, Op.checkout 0]).nextCommitID) ∧
    ((run [Op.addCommit, Op.branch, Op.checkout 1, Op.addCommit, Op.checkout 0]).getTip 1 = none →
      (run [Op.addCommit, Op.branch, Op.checkout 1, Op.addCommit, Op.checkout 0]).merge 1 = .error .invalidArgument)) :=
  ⟨⟨[Op.addCommit, Op.branch, Op.checkout 1, Op.addCommit, Op.checkout 0], rfl⟩,
    merge_spec (run [Op.addCommit, Op.branch, Op.checkout 1, Op.addCommit, Op.checkout 0])
      ⟨[Op.addCommit, Op.branch, Op.checkout 1, Op.addCommit, Op.checkout 0], rfl⟩ 1⟩

/-- **C5**: for every reachable tree with more than one commit, `undo()`
removes the most-recently-created commit from the commit collection,
removes it from its parents' child lists, and moves head to its parent;
for a tree holding only the root commit, `undo()` changes nothing (one
commit remains, id and branch counters untouched) and never raises an
error (`undo` is a total function into `GitTree`). -/
theorem undo_spec (t : GitTree) (h : Reachable t) :
    (1 < t.commits.length →
      ∃ (c : Commit) (p : Nat) (rest : List Nat),
        t.commits.getLast? = some c ∧ c.parents = p :: rest ∧
        t.undo.getAllCommitIDs = t.getAllCommitIDs.dropLast ∧
        t.undo.head = p ∧
        (∀ x ∈ t.undo.commits, x.commitID ∈ c.parents → c.commitID ∉ x.children)) ∧
    (t.commits.length = 1 →
      t.undo = t ∧ t.undo.commits.length = 1 ∧
      t.undo.nextCommitID = t.nextCommitID ∧ t.undo.nextBranchID = t.nextBranchID) := by
  have hinv := reachable_inv h
  constructor
  · intro hlen
    have hne : t.commits ≠ [] := by
      intro hnil
      rw [hnil] at hlen
      simp at hlen
    cases hlast : t.commits.getLast? with
    | none => exact absurd (List.getLast?_eq_none_iff.mp hlast) hne
    | some c =>
      have hsplit : t.commits.dropLast ++ [c] = t.commits :=
        List.dropLast_append_getLast? c hlast
      have hmemc : c ∈ t.commits := by
        rw [← hsplit]
        exact List.mem_append_right _ (List.mem_singleton_self _)
      have hLlen : t.commits.dropLast.length + 1 = t.commits.length := by
        conv_rhs => rw [← hsplit]
        rw [List.length_append]
        rfl
      have hLpos : 0 < t.commits.dropLast.length := by omega
      rcases List.exists_mem_of_length_pos hLpos with ⟨x, hxL⟩
      have hpw' : (t.commits.dropLast ++ [c]).Pairwise
          (fun a b => a.commitID < b.commitID) := by
        rw [hsplit]
        exact hinv.pw
      have hxlt : x.commitID < c.commitID :=
        (List.pairwise_append.mp hpw').2.2 x hxL c (List.mem_singleton_self _)
      have hc0 : c.commitID ≠ 0 := by omega
      have hparne : c.parents ≠ [] := fun hnil => hc0 (hinv.rootPar c hmemc hnil)
      cases hp : c.parents with
      | nil => exact absurd hp hparne
      | cons p rest =>
        have hlen' : ¬t.commits.length ≤ 1 := by omega
        have hu := undo_of_last hlast hlen' hp
        refine ⟨c, p, rest, rfl, hp, ?_, ?_, ?_⟩
        · rw [hu]
          show (t.commits.dropLast.map (childUnlink c)).map (·.commitID)
            = t.getAllCommitIDs.dropLast
          have idsplit : t.getAllCommitIDs
              = t.commits.dropLast.map (·.commitID) ++ [c.commitID] := by
            conv_lhs => rw [GitTree.getAllCommitIDs, ← hsplit]
            rw [List.map_append]
            rfl
          rw [idsplit, List.dropLast_concat, List.map_map]
          apply List.map_congr_left
          intro x₀ _
          simp only [Function.comp_apply]
          exact childUnlink_commitID _ _
        · rw [hu]
        · intro x' hx' hxp
          rw [hu] at hx'
          rcases List.mem_map.mp hx' with ⟨x₀, hx₀, rfl⟩
          rw [childUnlink_commitID] at hxp
          rw [childUnlink_of_mem hxp]
          intro habs
          have hsubx : x₀ ∈ t.commits := by
            rw [← hsplit]
            exact List.mem_append_left _ hx₀
          exact ((children_nodup hinv hsubx).mem_erase_iff.mp habs).1 rfl
  · intro hlen1
    have hu : t.undo = t := undo_of_short (le_of_eq hlen1)
    refine ⟨hu, ?_, ?_, ?_⟩
    · rw [hu]
      exact hlen1
    · rw [hu]
    · rw [hu]

theorem undo_spec_witness :
    Reachable (run [Op.addCommit]) ∧
    ((1 < (run [Op.addCommit]).commits.length →
      ∃ (c : Commit) (p : Nat) (rest : List Nat),
        (run [Op.addCommit]).commits.getLast? = some c ∧ c.parents = p :: rest ∧
        (run [Op.addCommit]).undo.getAllCommitIDs
          = (run [Op.addCommit]).getAllCommitIDs.dropLast ∧
        (run [Op.addCommit]).undo.head = p ∧
        (∀ x ∈ (run [Op.addCommit]).undo.commits,
          x.commitID ∈ c.parents → c.commitID ∉ x.children)) ∧
    ((run [Op.addCommit]).commits.length = 1 →
      (run [Op.addCommit]).undo = run [Op.addCommit] ∧
      (run [Op.addCommit]).undo.commits.length = 1 ∧
      (run [Op.addCommit]).undo.nextCommitID = (run [Op.addCommit]).nextCommitID ∧
      (run [Op.addCommit]).undo.nextBranchID = (run [Op.addCommit]).nextBranchID)) :=
  ⟨⟨[Op.addCommit], rfl⟩, undo_spec (run [Op.addCommit]) ⟨[Op.addCommit], rfl⟩⟩

/-- **C6**: `reset()` always yields a state structurally identical to a
freshly constructed tree, regardless of the prior state: exactly one
commit (id 0, branch 0) which is the head, one registered branch, and
both id counters back at their initial values. -/
theorem reset_spec (t : GitTree) :
    t.reset = GitTree.new ∧
    t.reset.commits = [{ commitID := 0, branchID := 0, parents := [], children := [] }] ∧
    t.reset.head = 0 ∧
    t.reset.currentBranch = 0 ∧
    t.reset.branchHeads = [(0, 0)] ∧
    t.reset.nextCommitID = GitTree.new.nextCommitID ∧
    t.reset.nextBranchID = GitTree.new.nextBranchID :=
  ⟨rfl, rfl, rfl, rfl, rfl, rfl, rfl⟩

/-- **C7**: in every reachable tree state, any two distinct commits have
different commit ids: `getAllCommitIDs()` never contains a repeated id. -/
theorem commitIDs_nodup (t : GitTree) (h : Reachable t) : t.getAllCommitIDs.Nodup := by
  have hinv := reachable_inv h
  have hpw : t.getAllCommitIDs.Pairwise (· < ·) := by
    rw [GitTree.getAllCommitIDs]
    exact List.pairwise_map.mpr hinv.pw
  exact hpw.imp Nat.ne_of_lt

theorem commitIDs_nodup_witness :
    Reachable (run [Op.addCommit, Op.branch, Op.checkout 1, Op.addCommit, Op.checkout 0, Op.merge 1, Op.undo, Op.addCommit]) ∧
    (run [Op.addCommit, Op.branch, Op.checkout 1, Op.addCommit, Op.checkout 0, Op.merge 1, Op.undo, Op.addCommit]).getAllCommitIDs.Nodup :=
  ⟨⟨[Op.addCommit, Op.branch, Op.checkout 1, Op.addCommit, Op.checkout 0, Op.merge 1, Op.undo, Op.addCommit], rfl⟩,
    commitIDs_nodup _
      ⟨[Op.addCommit, Op.branch, Op.checkout 1, Op.addCommit, Op.checkout 0, Op.merge 1, Op.undo, Op.addCommit], rfl⟩⟩

/-- **C8**: after every mutating operation (that is, in every reachable
state) the parent and child links are reciprocal: for every pair of
commits `a` and `b` in the tree, `a` appears among `b`'s parents iff `b`
appears among `a`'s children. -/
theorem links_reciprocal (t : GitTree) (h : Reachable t) :
    ∀ a ∈ t.commits, ∀ b ∈ t.commits,
      (a.commitID ∈ b.parents ↔ b.commitID ∈ a.children) := by
  have hinv := reachable_inv h
  intro a ha b hb
  exact ⟨fun hab => hinv.recipPC a ha b hb hab,
         fun hba => hinv.recipCP b hb a ha hba⟩

theorem links_reciprocal_witness :
    Reachable (run [Op.addCommit, Op.branch, Op.checkout 1, Op.addCommit, Op.checkout 0, Op.merge 1]) ∧
    ∀ a ∈ (run [Op.addCommit, Op.branch, Op.checkout 1, Op.addCommit, Op.checkout 0, Op.merge 1]).commits,
      ∀ b ∈ (run [Op.addCommit, Op.branch, Op.checkout 1, Op.addCommit, Op.checkout 0, Op.merge 1]).commits,
        (a.commitID ∈ b.parents ↔ b.commitID ∈ a.children) :=
  ⟨⟨[Op.addCommit, Op.branch, Op.checkout 1, Op.addCommit, Op.checkout 0, Op.merge 1], rfl⟩,
    links_reciprocal _
      ⟨[Op.addCommit, Op.branch, Op.checkout 1, Op.addCommit, Op.checkout 0, Op.merge 1], rfl⟩⟩

/-- **C9**: in every reachable tree state the commit graph is acyclic: no
commit id is reachable from itself by following parent links one or more
times; in particular no commit lists itself as its own parent or child. -/
theorem acyclic_spec (t : GitTree) (h : Reachable t) :
    (∀ x : Nat, ¬Relation.TransGen (parentLink t) x x) ∧
    (∀ c ∈ t.commits, c.commitID ∉ c.parents ∧ c.commitID ∉ c.children) := by
  have hinv := reachable_inv h
  have hlt : ∀ x y : Nat, parentLink t x y → y < x := by
    intro x y hxy
    rcases hxy with ⟨c, hc, rfl, hy⟩
    exact hinv.parLt c hc y hy
  constructor
  · intro x hx
    have htr : Transitive (fun a b : Nat => b < a) := by
      intro a b c hab hbc
      exact lt_trans hbc hab
    have hxx : (fun a b : Nat => b < a) x x := by
      rw [← Relation.transGen_eq_self htr]
      exact hx.mono hlt
    exact lt_irrefl x hxx
  · intro c hc
    exact ⟨fun habs => absurd (hinv.parLt c hc _ habs) (lt_irrefl _),
           fun habs => absurd (hinv.chGt c hc _ habs) (lt_irrefl _)⟩

theorem acyclic_spec_witness :
    Reachable (run [Op.addCommit, Op.branch, Op.checkout 1, Op.addCommit, Op.checkout 0, Op.merge 1]) ∧
    ((∀ x : Nat, ¬Relation.TransGen
        (parentLink (run [Op.addCommit, Op.branch, Op.checkout 1, Op.addCommit, Op.checkout 0, Op.merge 1])) x x) ∧
     (∀ c ∈ (run [Op.addCommit, Op.branch, Op.checkout 1, Op.addCommit, Op.checkout 0, Op.merge 1]).commits,
        c.commitID ∉ c.parents ∧ c.commitID ∉ c.children)) :=
  ⟨⟨[Op.addCommit, Op.branch, Op.checkout 1, Op.addCommit, Op.checkout 0, Op.merge 1], rfl⟩,
    acyclic_spec _
      ⟨[Op.addCommit, Op.branch, Op.checkout 1, Op.addCommit, Op.checkout 0, Op.merge 1], rfl⟩⟩

/-- **C10**: every mutating operation is atomic with respect to failure:
when a call reports the invalid-argument error, the state a caller
continues with (the `step` semantics of a trace) is exactly the state
before the call — operations validate their preconditions before
performing any part of the graph edit. -/
theorem ops_atomic (t : GitTree) (op : Op) (e : GitErr)
    (herr : applyOp t op = .error e) : step t op = t := by
  unfold step
  rw [herr]

theorem ops_atomic_witness :
    applyOp GitTree.new (Op.checkout 5) = .error .invalidArgument ∧
    step GitTree.new (Op.checkout 5) = GitTree.new :=
  ⟨rfl, ops_atomic GitTree.new (Op.checkout 5) GitErr.invalidArgument rfl⟩

end GitGud
